import Mathlib

/-!
# eduterm: the character grid and the event loop of `src/eduterm.c`

A shallow embedding of the screen buffer kept in `X11win` (`buf`, `buf_w`,
`buf_h`, `buf_x`, `buf_y`), of the per-byte block of `run()` that stores a
byte, wraps and scrolls, of one pass of the `for (;;)` loop of `run()`, and
of `main()`.

Conventions.
* C `int` values are `Int`.  All cursor arithmetic stays between `-1` and
  `max buf_w buf_h`, so no `int` overflow is involved for a grid whose
  `buf_w * buf_h` is representable (the program uses 80 x 25).
* A `char` is a `Nat` (the byte value); bytes are only compared and copied.
* The heap block behind `buf` is a `List Nat`; every access outside the
  block is undefined behaviour in C and is `none` here.
-/

namespace Eduterm

/-! ## Memory primitives -/

/-- Assignment `p[i] = v` into a block of `buf.length` bytes. -/
def store (buf : List Nat) (i : Int) (v : Nat) : Option (List Nat) :=
  if 0 ≤ i ∧ i < buf.length then some (buf.set i.toNat v) else none

/-- Call `memmove(buf, &buf[src], n)`: the `n` bytes starting at offset `src`
are copied to offset `0` (the areas may overlap).  A negative `n` converts to
a huge `size_t` and leaves the block. -/
def memmove (buf : List Nat) (src n : Int) : Option (List Nat) :=
  if 0 ≤ src ∧ 0 ≤ n ∧ src + n ≤ buf.length then
    some ((buf.drop src.toNat).take n.toNat ++ buf.drop n.toNat)
  else none

/-- State of the loop `for (i = 0; i < buf_w; i++) buf[buf_y * buf_w + i] = 0;`
after its first `n` passes. -/
def clear_loop (buf : List Nat) (buf_w buf_y : Int) : Nat → Option (List Nat)
  | 0 => some buf
  | n + 1 => (clear_loop buf buf_w buf_y n).bind fun b => store b (buf_y * buf_w + (n : Int)) 0

/-! ## The screen buffer -/

/-- The screen-buffer fields of `struct _X11_S`. -/
structure X11win where
  buf : List Nat
  buf_w : Int
  buf_h : Int
  buf_x : Int
  buf_y : Int
deriving DecidableEq

/-- The screen buffer together with the local `just_wrapped` of `run()`. -/
structure Term where
  x11 : X11win
  just_wrapped : Bool
deriving DecidableEq

/-- Byte `'\r'`. -/
def CR : Nat := 13

/-- Byte `'\n'`. -/
def LF : Nat := 10

/-- Lines 223-227 of `x11_setup`, with the two constants as parameters:
cursor at the origin and a `calloc`ed (zero-filled) block of `w * h` bytes. -/
def x11_init (w h : Int) : X11win :=
  { buf := List.replicate (w * h).toNat 0, buf_w := w, buf_h := h, buf_x := 0, buf_y := 0 }

/-- The buffer `x11_setup` leaves on success: 80 x 25 cells. -/
def x11_setup_buf : X11win := x11_init 80 25

/-- State on entry to the loop of `run()`: `just_wrapped = false`. -/
def run_init (x : X11win) : Term := { x11 := x, just_wrapped := false }

/-- Lines 337-368 of `run()`, for a byte other than `'\r'`: a regular byte is
stored and the cursor moves right, wrapping at the width; a newline moves the
cursor down unless `just_wrapped` is set. -/
def advance (t : Term) (b : Nat) : Option Term :=
  if b ≠ LF then
    (store t.x11.buf (t.x11.buf_y * t.x11.buf_w + t.x11.buf_x) b).map fun buf =>
      if t.x11.buf_x + 1 ≥ t.x11.buf_w then
        { x11 := { t.x11 with buf := buf, buf_x := 0, buf_y := t.x11.buf_y + 1 },
          just_wrapped := true }
      else
        { x11 := { t.x11 with buf := buf, buf_x := t.x11.buf_x + 1 },
          just_wrapped := false }
  else if !t.just_wrapped then
    some { x11 := { t.x11 with buf_y := t.x11.buf_y + 1 }, just_wrapped := false }
  else
    some t

/-- Lines 376-384 of `run()`: when the cursor row is outside the buffer the
content moves one line up, the cursor stays in the last line and that line is
cleared. -/
def scroll (x : X11win) : Option X11win :=
  if x.buf_y ≥ x.buf_h then
    (memmove x.buf x.buf_w (x.buf_w * (x.buf_h - 1))).bind fun moved =>
      (clear_loop moved x.buf_w (x.buf_h - 1) x.buf_w.toNat).map fun cleared =>
        { x with buf := cleared, buf_y := x.buf_h - 1 }
  else
    some x

/-- Lines 330-385 of `run()`: the per-byte block applied to the byte read. -/
def ingest (t : Term) (b : Nat) : Option Term :=
  if b = CR then
    some { t with x11 := { t.x11 with buf_x := 0 } }
  else
    (advance t b).bind fun t1 => (scroll t1.x11).map fun x => { t1 with x11 := x }

/-- The per-byte block applied to a sequence of bytes, one at a time. -/
def ingest_all (t : Term) : List Nat → Option Term
  | [] => some t
  | b :: bs => (ingest t b).bind fun t1 => ingest_all t1 bs

/-- Rows the cursor moves down in lines 330-368 for one byte, before the
overflow check: the number of times `buf_y++` (lines 346, 366) is executed. -/
def row_delta (t : Term) (b : Nat) : Option Int :=
  if b = CR then some 0 else (advance t b).map fun t1 => t1.x11.buf_y - t.x11.buf_y

/-- Rows the cursor is moved down by `buf_y++` while a byte sequence is
ingested. -/
def rows_advanced (t : Term) : List Nat → Option Int
  | [] => some 0
  | b :: bs =>
    (row_delta t b).bind fun d =>
      (ingest t b).bind fun t1 => (rows_advanced t1 bs).map fun n => d + n

/-- The cursor and the block are consistent with the grid: both dimensions are
at least one, the block has `buf_w * buf_h` bytes and the cursor is on a cell. -/
def valid (x : X11win) : Prop :=
  1 ≤ x.buf_w ∧ 1 ≤ x.buf_h ∧ (x.buf.length : Int) = x.buf_w * x.buf_h ∧
  0 ≤ x.buf_x ∧ x.buf_x < x.buf_w ∧ 0 ≤ x.buf_y ∧ x.buf_y < x.buf_h

instance (x : X11win) : Decidable (valid x) := by
  unfold valid; infer_instance

/-- A buffer state given by natural-number dimensions and cursor. -/
@[reducible] def atCell (buf : List Nat) (W H X Y : Nat) : X11win :=
  { buf := buf, buf_w := (W : Int), buf_h := (H : Int), buf_x := (X : Int), buf_y := (Y : Int) }

/-- The buffer as it is once the byte, if it is a regular one, has been stored
(line 341), before any shift. -/
def stored_buf (t : Term) (b : Nat) : List Nat :=
  if b = CR ∨ b = LF then t.x11.buf
  else t.x11.buf.set (t.x11.buf_y * t.x11.buf_w + t.x11.buf_x).toNat b

/-- The byte moves the cursor row past the last row: lines 330-368 leave
`buf_y >= buf_h`, the condition of line 376. -/
def past_last_row (t : Term) (b : Nat) : Prop :=
  b ≠ CR ∧ ∃ t1, advance t b = some t1 ∧ t1.x11.buf_h ≤ t1.x11.buf_y

/-- Function `iscntrl` of `<ctype.h>` in the "C" locale (the program never calls
`setlocale`): the control characters are the codes below 32 and 127. -/
def iscntrl (c : Nat) : Bool := c < 32 || c = 127

/-- A byte `x11_redraw` draws (line 280): one that is not a control character. -/
def printable (c : Nat) : Bool := !iscntrl c

/-! ## The event loop -/

/-- The events the `switch` of `run()` tells apart.  A key press carries the
bytes `XLookupString` decodes it to in `x11_key`. -/
inductive XEvent
  | Expose
  | ResizeRequest (width height : Int)
  | KeyPress (keys : List Nat)
  | Other
deriving DecidableEq

/-- What the program does to the outside. -/
inductive Action
  | call (fn : String)
  | redraw (x : X11win)
  | write_master (b : Nat)
  | resize_nyi (w h : Int)
  | ioctl_winsz (cols rows : Int)
  | fork
  | exec_shell
  | perror (msg : String)
  | eprint (msg : String)
deriving DecidableEq

/-- How a pass of the loop, or the program, ends. -/
inductive Status
  | running
  | returned (code : Int)
  | shell
  | undefined
deriving DecidableEq

/-- The session: screen buffer and `just_wrapped`, the queue of display events
not yet taken by `XNextEvent`, and the actions performed so far, oldest first. -/
structure Session where
  term : Term
  xqueue : List XEvent
  log : List Action
deriving DecidableEq

/-- What the system answers during one pass of the loop: the return value of
`select`, the two `FD_ISSET` tests, the return value of `read` and the byte it
delivered, and the display events that arrived while the loop was waiting. -/
structure Pass where
  select_ret : Int
  pty_ready : Bool
  read_ret : Int
  read_byte : Nat
  x11_ready : Bool
  arrivals : List XEvent
deriving DecidableEq

/-- Function `x11_key`: every decoded byte is written to the master. -/
def x11_key (keys : List Nat) (log : List Action) : List Action :=
  log ++ keys.map Action.write_master

/-- Lines 390-406 of `run()`: the loop `while (XPending(...))` takes the queued
events in order and dispatches each. -/
def drain (t : Term) : List XEvent → List Action → List Action
  | [], log => log
  | XEvent.Expose :: evs, log => drain t evs (log ++ [Action.redraw t.x11])
  | XEvent.ResizeRequest w h :: evs, log => drain t evs (log ++ [Action.resize_nyi w h])
  | XEvent.KeyPress keys :: evs, log => drain t evs (x11_key keys log)
  | XEvent.Other :: evs, log => drain t evs log

/-- Lines 321-387 of `run()`: the terminal channel is ready. -/
def pty_readable (s : Session) (p : Pass) : Session × Status :=
  if p.read_ret ≤ 0 then
    ({ s with log := s.log ++ [Action.eprint "Nothing to read from child: ", Action.perror ""] },
      Status.returned 1)
  else
    match ingest s.term p.read_byte with
    | none => (s, Status.undefined)
    | some t => ({ s with term := t, log := s.log ++ [Action.redraw t.x11] }, Status.running)

/-- Lines 389-407 of `run()`: the display channel is ready. -/
def x11_readable (s : Session) : Session :=
  { s with xqueue := [], log := drain s.term s.xqueue s.log }

/-- One pass of the body of `for (;;)` in `run()` (lines 312-407). -/
def iteration (s : Session) (p : Pass) : Session × Status :=
  let s0 : Session := { s with xqueue := s.xqueue ++ p.arrivals }
  if p.select_ret = -1 then
    ({ s0 with log := s0.log ++ [Action.perror "select"] }, Status.returned 1)
  else
    let r := if p.pty_ready then pty_readable s0 p else (s0, Status.running)
    match r.2 with
    | Status.running => if p.x11_ready then (x11_readable r.1, Status.running) else r
    | _ => r

/-- The loop of `run()` over a script of wake-ups; with the script used up the
loop is blocked in `select`. -/
def run_loop (s : Session) : List Pass → Session × Status
  | [] => (s, Status.running)
  | p :: ps =>
    match iteration s p with
    | (s1, Status.running) => run_loop s1 ps
    | r => r

/-- Function `run`: the loop entered with `just_wrapped = false`. -/
def run (x : X11win) (queue : List XEvent) (log : List Action) (ps : List Pass) :
    Session × Status :=
  run_loop { term := run_init x, xqueue := queue, log := log } ps

/-! ## Start-up -/

/-- What the system answers during start-up: whether `x11_setup` and `pty_pair`
succeed, the return value of `ioctl(TIOCSWINSZ)`, the return value of `fork`
in this process, and in the child the return value of `ioctl(TIOCSCTTY)`
(`execle` returns only on failure). -/
structure Startup where
  x11_setup_ok : Bool
  pty_pair_ok : Bool
  winsz_ret : Int
  fork_ret : Int
  ctty_ret : Int
  exec_fails : Bool
deriving DecidableEq

/-- Function `term_set_size`: the window size is handed to the kernel; a
failing `ioctl` is reported with `perror` and makes the result `false`. -/
def term_set_size (env : Startup) (x : X11win) (log : List Action) : Bool × List Action :=
  if env.winsz_ret = -1 then
    (false, log ++ [Action.ioctl_winsz x.buf_w x.buf_h, Action.perror "ioctl(TIOCSWINSZ)"])
  else
    (true, log ++ [Action.ioctl_winsz x.buf_w x.buf_h])

/-- Function `pty_spawn`.  The result is `none` when the process image has
been replaced by the shell. -/
def pty_spawn (env : Startup) (log : List Action) : Option Bool × List Action :=
  if env.fork_ret = 0 then
    if env.ctty_ret = -1 then
      (some false, log ++ [Action.fork, Action.perror "ioctl(TIOCSCTTY)"])
    else if env.exec_fails then
      (some false, log ++ [Action.fork, Action.exec_shell])
    else
      (none, log ++ [Action.fork, Action.exec_shell])
  else if env.fork_ret > 0 then
    (some true, log ++ [Action.fork])
  else
    (some false, log ++ [Action.fork, Action.perror "fork"])

/-- Function `main`: the four start-up steps, each fatal on failure, then the
event loop. -/
def main (env : Startup) (ps : List Pass) : List Action × Status :=
  let log := [Action.call "x11_setup"]
  if !env.x11_setup_ok then (log, Status.returned 1)
  else
    let log := log ++ [Action.call "pty_pair"]
    if !env.pty_pair_ok then (log, Status.returned 1)
    else
      let r := term_set_size env x11_setup_buf log
      if !r.1 then (r.2, Status.returned 1)
      else
        match pty_spawn env r.2 with
        | (none, log) => (log, Status.shell)
        | (some false, log) => (log, Status.returned 1)
        | (some true, log) =>
          let out := run x11_setup_buf [] (log ++ [Action.call "run"]) ps
          (out.1.log, out.2)

/-! ## Examples -/

example : ingest_all (run_init (x11_init 2 2)) [97, 98, 10, 99] =
    some ⟨⟨[97, 98, 99, 0], 2, 2, 1, 1⟩, false⟩ := by decide

example : ingest_all (run_init (x11_init 2 2)) [97, 98, 99, 100, 101] =
    some ⟨⟨[99, 100, 101, 0], 2, 2, 1, 1⟩, false⟩ := by decide

example : ingest_all (run_init (x11_init 2 2)) [97, 98, 10, 10, 99] =
    some ⟨⟨[97, 98, 99, 0], 2, 2, 1, 1⟩, false⟩ := by decide

example : ingest_all (run_init (x11_init 3 2)) [97, 98, 13, 99, 10, 100] =
    some ⟨⟨[99, 98, 0, 0, 100, 0], 3, 2, 2, 1⟩, false⟩ := by decide

example : store [1, 2, 3] 3 9 = none := by decide

example : scroll ⟨[1, 2, 3, 4, 5, 6], 2, 3, 0, 3⟩ = some ⟨[3, 4, 5, 6, 0, 0], 2, 3, 0, 2⟩ := by
  decide

example : run (x11_init 2 2) [] []
    [⟨1, true, 1, 104, true, [XEvent.KeyPress [120, 121], XEvent.Expose]⟩,
     ⟨1, false, 0, 0, true, [XEvent.ResizeRequest 10 20]⟩,
     ⟨1, true, 0, 0, true, [XEvent.KeyPress [122]]⟩]
    = (⟨⟨⟨[104, 0, 0, 0], 2, 2, 1, 0⟩, false⟩, [XEvent.KeyPress [122]],
        [Action.redraw ⟨[104, 0, 0, 0], 2, 2, 1, 0⟩, Action.write_master 120,
         Action.write_master 121, Action.redraw ⟨[104, 0, 0, 0], 2, 2, 1, 0⟩,
         Action.resize_nyi 10 20, Action.eprint "Nothing to read from child: ",
         Action.perror ""]⟩, Status.returned 1) := rfl

example : (main ⟨true, true, 0, 0, 0, false⟩ []).2 = Status.shell := rfl

example : (main ⟨true, true, 0, 0, -1, false⟩ []).2 = Status.returned 1 := rfl

example : (main ⟨true, true, 0, -1, 0, false⟩ []).2 = Status.returned 1 := rfl

example : (main ⟨true, true, 0, 9, 0, false⟩ [⟨-1, false, 0, 0, false, []⟩])
    = ([Action.call "x11_setup", Action.call "pty_pair", Action.ioctl_winsz 80 25, Action.fork,
        Action.call "run", Action.perror "select"], Status.returned 1) := rfl

/-! ## Memory lemmas -/

theorem store_eq_some (buf : List Nat) (i : Nat) (v : Nat) (h : i < buf.length) :
    store buf (i : Int) v = some (buf.set i v) := by
  unfold store
  rw [if_pos ⟨by omega, by omega⟩]
  simp

theorem clear_loop_eq (buf : List Nat) (w y : Int) (base : Nat) (hb : y * w = (base : Int))
    (n : Nat) (hn : base + n ≤ buf.length) :
    clear_loop buf w y n
      = some (buf.take base ++ List.replicate n 0 ++ buf.drop (base + n)) := by
  induction n with
  | zero => simp [clear_loop]
  | succ n ih =>
    have hlt : base + n < buf.length := by omega
    rw [clear_loop, ih (by omega), Option.some_bind, hb]
    have hcast : ((base : Int) + (n : Int)) = ((base + n : Nat) : Int) := by push_cast; rfl
    rw [hcast, store_eq_some _ _ _ (by simp; omega)]
    congr 1
    have hl : (List.take base buf ++ List.replicate n 0).length = base + n := by
      simp; omega
    rw [List.set_append_right _ _ (by omega), hl, Nat.sub_self,
      List.drop_eq_getElem_cons hlt, List.set_cons_zero, List.replicate_succ']
    simp [Nat.add_assoc]

theorem scroll_overflow (buf : List Nat) (W H : Nat) (cx cy : Int) (hH : 1 ≤ H)
    (hlen : buf.length = W * H) (hy : (H : Int) ≤ cy) :
    scroll ⟨buf, W, H, cx, cy⟩
      = some ⟨buf.drop W ++ List.replicate W 0, W, H, cx, (H : Int) - 1⟩ := by
  obtain ⟨K, rfl⟩ : ∃ K, H = K + 1 := ⟨H - 1, by omega⟩
  have hlen' : buf.length = W * K + W := by rw [hlen]; ring
  have hn : (W : Int) * (((K + 1 : Nat) : Int) - 1) = ((W * K : Nat) : Int) := by
    push_cast; ring
  unfold scroll
  simp only [ge_iff_le, hy, if_true]
  unfold memmove
  rw [hn, if_pos ⟨by omega, by omega, by rw [hlen']; push_cast; omega⟩]
  simp only [Option.some_bind, Int.toNat_ofNat]
  have hb : (((K + 1 : Nat) : Int) - 1) * (W : Int) = ((W * K : Nat) : Int) := by
    push_cast; ring
  rw [clear_loop_eq _ _ _ (W * K) hb W (by simp; omega)]
  simp only [Option.map_some']
  congr 2
  have h1 : List.take (W * K) (List.drop W buf) = List.drop W buf :=
    List.take_of_length_le (by simp; omega)
  have h2 : (List.drop W buf).length = W * K := by simp; omega
  rw [h1, List.take_left' h2]
  have h3 : List.drop (W * K + W) (List.drop W buf ++ List.drop (W * K) buf) = [] := by
    apply List.drop_eq_nil_of_le
    simp; omega
  rw [h3, List.append_nil]

theorem scroll_inside (x : X11win) (hy : x.buf_y < x.buf_h) : scroll x = some x := by
  unfold scroll
  rw [if_neg (by omega)]

/-! ## The per-byte block on a consistent state -/

theorem valid_atCell (x : X11win) (hv : valid x) :
    ∃ W H X Y : Nat, x = atCell x.buf W H X Y ∧ 1 ≤ W ∧ 1 ≤ H ∧ X < W ∧ Y < H ∧
      x.buf.length = W * H := by
  obtain ⟨buf, w, h, cx, cy⟩ := x
  obtain ⟨hw, hh, hl, hx0, hx, hy0, hy⟩ := hv
  simp only at hw hh hl hx0 hx hy0 hy
  lift w to ℕ using (by omega)
  lift h to ℕ using (by omega)
  lift cx to ℕ using hx0
  lift cy to ℕ using hy0
  refine ⟨w, h, cx, cy, rfl, by omega, by omega, by omega, by omega, ?_⟩
  exact_mod_cast hl

theorem atCell_valid (buf : List Nat) (W H X Y : Nat) (hW : 1 ≤ W) (hH : 1 ≤ H) (hX : X < W)
    (hY : Y < H) (hl : buf.length = W * H) : valid (atCell buf W H X Y) := by
  refine ⟨by simp; omega, by simp; omega, ?_, by simp, by simp; omega, by simp, by simp; omega⟩
  simp only [hl]; push_cast; rfl

theorem cell_index_lt (W H X Y : Nat) (hX : X < W) (hY : Y < H) : Y * W + X < W * H := by
  have h1 : (Y + 1) * W ≤ H * W := Nat.mul_le_mul_right W hY
  have h2 : (Y + 1) * W = Y * W + W := by ring
  have h3 : H * W = W * H := Nat.mul_comm H W
  omega

theorem store_cell (buf : List Nat) (W H X Y : Nat) (b : Nat) (hX : X < W) (hY : Y < H)
    (hl : buf.length = W * H) :
    store buf ((Y : Int) * (W : Int) + (X : Int)) b = some (buf.set (Y * W + X) b) := by
  have h := store_eq_some buf (Y * W + X) b (by rw [hl]; exact cell_index_lt W H X Y hX hY)
  rw [← h]; push_cast; rfl

/-- A regular byte away from the last column. -/
theorem ingest_byte_inside (buf : List Nat) (W H X Y : Nat) (jw : Bool) (b : Nat)
    (hcr : b ≠ CR) (hlf : b ≠ LF) (hX : X + 1 < W) (hY : Y < H) (hl : buf.length = W * H) :
    ingest ⟨atCell buf W H X Y, jw⟩ b
      = some ⟨atCell (buf.set (Y * W + X) b) W H (X + 1) Y, false⟩ := by
  unfold ingest advance
  simp only [hcr, hlf, if_false, ne_eq, not_false_eq_true, if_true]
  rw [store_cell buf W H X Y b (by omega) hY hl]
  simp only [Option.map_some', ge_iff_le]
  rw [if_neg (by omega), Option.some_bind, scroll_inside _ (by simp; omega)]
  simp

/-- A regular byte in the last column of a row that is not the last one. -/
theorem ingest_byte_wrap (buf : List Nat) (W H X Y : Nat) (jw : Bool) (b : Nat)
    (hcr : b ≠ CR) (hlf : b ≠ LF) (hX : X + 1 = W) (hY : Y + 1 < H) (hl : buf.length = W * H) :
    ingest ⟨atCell buf W H X Y, jw⟩ b
      = some ⟨atCell (buf.set (Y * W + X) b) W H 0 (Y + 1), true⟩ := by
  unfold ingest advance
  simp only [hcr, hlf, if_false, ne_eq, not_false_eq_true, if_true]
  rw [store_cell buf W H X Y b (by omega) (by omega) hl]
  simp only [Option.map_some', ge_iff_le]
  rw [if_pos (by omega), Option.some_bind, scroll_inside _ (by simp; omega)]
  simp

/-- A regular byte in the last cell of the grid. -/
theorem ingest_byte_scroll (buf : List Nat) (W H X Y : Nat) (jw : Bool) (b : Nat)
    (hcr : b ≠ CR) (hlf : b ≠ LF) (hX : X + 1 = W) (hY : Y + 1 = H) (hl : buf.length = W * H) :
    ingest ⟨atCell buf W H X Y, jw⟩ b
      = some ⟨atCell ((buf.set (Y * W + X) b).drop W ++ List.replicate W 0) W H 0 Y, true⟩ := by
  unfold ingest advance
  simp only [hcr, hlf, if_false, ne_eq, not_false_eq_true, if_true]
  rw [store_cell buf W H X Y b (by omega) (by omega) hl]
  simp only [Option.map_some', ge_iff_le]
  rw [if_pos (by omega), Option.some_bind]
  rw [scroll_overflow _ W H 0 _ (by omega) (by simpa using hl) (by omega)]
  simp only [Option.map_some']
  congr 3
  omega

/-- A newline right after an implicit wrap. -/
theorem ingest_lf_suppressed (x : X11win) (hy : x.buf_y < x.buf_h) :
    ingest ⟨x, true⟩ LF = some ⟨x, true⟩ := by
  unfold ingest advance
  simp [CR, LF, scroll_inside x hy]

/-- A newline above the last row, `just_wrapped` clear. -/
theorem ingest_lf_down (buf : List Nat) (W H X Y : Nat) (hY : Y + 1 < H) :
    ingest ⟨atCell buf W H X Y, false⟩ LF = some ⟨atCell buf W H X (Y + 1), false⟩ := by
  unfold ingest advance
  simp only [CR, LF]
  simp
  rw [scroll_inside _ (by simp; omega)]
  simp

/-- A newline in the last row, `just_wrapped` clear. -/
theorem ingest_lf_scroll (buf : List Nat) (W H X Y : Nat) (hY : Y + 1 = H)
    (hl : buf.length = W * H) :
    ingest ⟨atCell buf W H X Y, false⟩ LF
      = some ⟨atCell (buf.drop W ++ List.replicate W 0) W H X Y, false⟩ := by
  unfold ingest advance
  simp only [CR, LF]
  simp
  rw [scroll_overflow _ W H _ _ (by omega) hl (by omega)]
  simp
  omega

theorem ingest_cr (t : Term) : ingest t CR = some ⟨{ t.x11 with buf_x := 0 }, t.just_wrapped⟩ := by
  simp [ingest]

/-- Every consistent state has the `atCell` form. -/
theorem term_atCell (t : Term) (hv : valid t.x11) :
    ∃ (buf : List Nat) (W H X Y : Nat) (jw : Bool), t = ⟨atCell buf W H X Y, jw⟩ ∧
      1 ≤ W ∧ 1 ≤ H ∧ X < W ∧ Y < H ∧ buf.length = W * H := by
  obtain ⟨x, jw⟩ := t
  obtain ⟨W, H, X, Y, hx, h⟩ := valid_atCell x hv
  exact ⟨x.buf, W, H, X, Y, jw, by rw [← hx], h⟩

theorem length_set_drop_append (buf : List Nat) (W H i v : Nat) (hH : 1 ≤ H)
    (hl : buf.length = W * H) :
    ((buf.set i v).drop W ++ List.replicate W 0).length = W * H := by
  obtain ⟨K, rfl⟩ : ∃ K, H = K + 1 := ⟨H - 1, by omega⟩
  have : W * (K + 1) = W * K + W := by ring
  simp [hl]; omega

theorem length_drop_append (buf : List Nat) (W H : Nat) (hH : 1 ≤ H)
    (hl : buf.length = W * H) :
    (buf.drop W ++ List.replicate W 0).length = W * H := by
  obtain ⟨K, rfl⟩ : ∃ K, H = K + 1 := ⟨H - 1, by omega⟩
  have : W * (K + 1) = W * K + W := by ring
  simp [hl]; omega

/-- The per-byte block keeps a consistent state consistent, on the same grid. -/
theorem ingest_valid (t : Term) (b : Nat) (hv : valid t.x11) :
    ∃ t', ingest t b = some t' ∧ valid t'.x11 ∧ t'.x11.buf_w = t.x11.buf_w ∧
      t'.x11.buf_h = t.x11.buf_h := by
  obtain ⟨buf, W, H, X, Y, jw, rfl, hW, hH, hX, hY, hl⟩ := term_atCell t hv
  by_cases hcr : b = CR
  · subst hcr
    exact ⟨_, ingest_cr _, atCell_valid buf W H 0 Y hW hH (by omega) hY hl, rfl, rfl⟩
  by_cases hlf : b = LF
  · subst hlf
    cases jw with
    | true =>
      exact ⟨_, ingest_lf_suppressed _ (by simp; omega), hv, rfl, rfl⟩
    | false =>
      by_cases hlast : Y + 1 < H
      · exact ⟨_, ingest_lf_down buf W H X Y hlast,
          atCell_valid buf W H X (Y + 1) hW hH hX hlast hl, rfl, rfl⟩
      · exact ⟨_, ingest_lf_scroll buf W H X Y (by omega) hl,
          atCell_valid _ W H X Y hW hH hX hY (length_drop_append buf W H hH hl), rfl, rfl⟩
  by_cases hcol : X + 1 < W
  · exact ⟨_, ingest_byte_inside buf W H X Y jw b hcr hlf hcol hY hl,
      atCell_valid _ W H (X + 1) Y hW hH hcol hY (by simpa using hl), rfl, rfl⟩
  by_cases hlast : Y + 1 < H
  · exact ⟨_, ingest_byte_wrap buf W H X Y jw b hcr hlf (by omega) hlast hl,
      atCell_valid _ W H 0 (Y + 1) hW hH (by omega) hlast (by simpa using hl), rfl, rfl⟩
  · exact ⟨_, ingest_byte_scroll buf W H X Y jw b hcr hlf (by omega) (by omega) hl,
      atCell_valid _ W H 0 Y hW hH (by omega) hY
        (length_set_drop_append buf W H _ b hH hl), rfl, rfl⟩

/-- Any byte sequence keeps a consistent state consistent, on the same grid. -/
theorem ingest_all_valid (bs : List Nat) (t : Term) (hv : valid t.x11) :
    ∃ t', ingest_all t bs = some t' ∧ valid t'.x11 ∧ t'.x11.buf_w = t.x11.buf_w ∧
      t'.x11.buf_h = t.x11.buf_h := by
  induction bs generalizing t with
  | nil => exact ⟨t, rfl, hv, rfl, rfl⟩
  | cons b bs ih =>
    obtain ⟨t1, h1, hv1, hw1, hh1⟩ := ingest_valid t b hv
    obtain ⟨t2, h2, hv2, hw2, hh2⟩ := ih t1 hv1
    refine ⟨t2, ?_, hv2, by rw [hw2, hw1], by rw [hh2, hh1]⟩
    simp [ingest_all, h1, h2]

theorem x11_init_valid (W H : Int) (hW : 1 ≤ W) (hH : 1 ≤ H) : valid (x11_init W H) := by
  have hpos : 0 ≤ W * H := by positivity
  refine ⟨hW, hH, ?_, le_refl _, by simp [x11_init]; omega, le_refl _, by simp [x11_init]; omega⟩
  simp [x11_init, Int.toNat_of_nonneg hpos]

/-- The index `buf_y * buf_w + buf_x` of a consistent state is inside the block. -/
theorem valid_index (x : X11win) (hv : valid x) :
    0 ≤ x.buf_y * x.buf_w + x.buf_x ∧ x.buf_y * x.buf_w + x.buf_x < x.buf_w * x.buf_h := by
  obtain ⟨hw, hh, _, hx0, hx, hy0, hy⟩ := hv
  constructor
  · positivity
  · nlinarith [mul_le_mul_of_nonneg_right (show x.buf_y + 1 ≤ x.buf_h by omega)
      (show (0 : Int) ≤ x.buf_w by omega)]

/-! ## Runs of regular bytes -/

theorem row_delta_inside (buf : List Nat) (W H X Y : Nat) (jw : Bool) (b : Nat)
    (hcr : b ≠ CR) (hlf : b ≠ LF) (hX : X + 1 < W) (hY : Y < H) (hl : buf.length = W * H) :
    row_delta ⟨atCell buf W H X Y, jw⟩ b = some 0 := by
  unfold row_delta advance
  simp only [hcr, hlf, if_false, ne_eq, not_false_eq_true, if_true]
  rw [store_cell buf W H X Y b (by omega) hY hl]
  simp only [Option.map_some', ge_iff_le]
  rw [if_neg (by omega)]
  simp

theorem row_delta_wrap (buf : List Nat) (W H X Y : Nat) (jw : Bool) (b : Nat)
    (hcr : b ≠ CR) (hlf : b ≠ LF) (hX : X + 1 = W) (hY : Y < H) (hl : buf.length = W * H) :
    row_delta ⟨atCell buf W H X Y, jw⟩ b = some 1 := by
  unfold row_delta advance
  simp only [hcr, hlf, if_false, ne_eq, not_false_eq_true, if_true]
  rw [store_cell buf W H X Y b (by omega) hY hl]
  simp only [Option.map_some', ge_iff_le]
  rw [if_pos (by omega)]
  simp

/-- A run of regular bytes started at column `X` of row `Y`: the column ends at
`(X + L) % W`, `buf_y++` ran `(X + L) / W` times, the row is that many rows further
down, held at the last row by the scroll, and `just_wrapped` tells whether the last byte
of the run filled a row. -/
theorem regular_run (W H : Nat) (hW : 1 ≤ W) (bs : List Nat)
    (hbs : ∀ b ∈ bs, b ≠ CR ∧ b ≠ LF) :
    ∀ (buf : List Nat) (X Y : Nat) (jw : Bool), X < W → Y < H → buf.length = W * H →
      ∃ (buf' : List Nat) (jw' : Bool),
        ingest_all ⟨atCell buf W H X Y, jw⟩ bs
          = some ⟨atCell buf' W H ((X + bs.length) % W)
              (min (Y + (X + bs.length) / W) (H - 1)), jw'⟩ ∧
        buf'.length = W * H ∧
        rows_advanced ⟨atCell buf W H X Y, jw⟩ bs = some (((X + bs.length) / W : Nat) : Int) ∧
        jw' = (if bs = [] then jw else decide ((X + bs.length) % W = 0)) := by
  induction bs with
  | nil =>
    intro buf X Y jw hX hY hl
    refine ⟨buf, jw, ?_, hl, ?_, by simp⟩
    · simp only [ingest_all, List.length_nil, Nat.add_zero, Nat.mod_eq_of_lt hX,
        Nat.div_eq_of_lt hX]
      rw [Nat.min_eq_left (by omega)]
    · simp [rows_advanced, Nat.div_eq_of_lt hX]
  | cons b bs ih =>
    intro buf X Y jw hX hY hl
    obtain ⟨hcr, hlf⟩ := hbs b (List.mem_cons_self _ _)
    have hbs' : ∀ c ∈ bs, c ≠ CR ∧ c ≠ LF := fun c hc => hbs c (List.mem_cons_of_mem _ hc)
    have hlen : X + (b :: bs).length = X + 1 + bs.length := by simp; omega
    rw [hlen]
    by_cases hcol : X + 1 < W
    · obtain ⟨buf', jw', h1, h2, h3, h4⟩ :=
        ih hbs' (buf.set (Y * W + X) b) (X + 1) Y false hcol hY (by simpa using hl)
      refine ⟨buf', jw', ?_, h2, ?_, ?_⟩
      · simp only [ingest_all, ingest_byte_inside buf W H X Y jw b hcr hlf hcol hY hl,
          Option.some_bind, h1]
      · simp only [rows_advanced, row_delta_inside buf W H X Y jw b hcr hlf hcol hY hl,
          ingest_byte_inside buf W H X Y jw b hcr hlf hcol hY hl, Option.some_bind, h3,
          Option.map_some', zero_add]
      · rw [h4, if_neg (List.cons_ne_nil b bs)]
        by_cases hnil : bs = []
        · subst hnil
          have : (X + 1) % W ≠ 0 := by rw [Nat.mod_eq_of_lt hcol]; omega
          simp [this]
        · rw [if_neg hnil]
    · have hXW : X + 1 = W := by omega
      have hmod : (X + 1 + bs.length) % W = (0 + bs.length) % W := by
        rw [hXW, Nat.zero_add, Nat.add_mod_left]
      have hdiv : (X + 1 + bs.length) / W = (0 + bs.length) / W + 1 := by
        rw [hXW, Nat.zero_add, Nat.add_div_left _ (by omega)]
      have hflag : ∀ jw' : Bool,
          jw' = (if bs = [] then true else decide ((0 + bs.length) % W = 0)) →
          jw' = (if b :: bs = [] then jw else decide ((0 + bs.length) % W = 0)) := by
        intro jw' h
        rw [h, if_neg (List.cons_ne_nil b bs)]
        by_cases hnil : bs = []
        · subst hnil; simp
        · rw [if_neg hnil]
      rw [hmod, hdiv]
      by_cases hlast : Y + 1 < H
      · obtain ⟨buf', jw', h1, h2, h3, h4⟩ :=
          ih hbs' (buf.set (Y * W + X) b) 0 (Y + 1) true (by omega) hlast (by simpa using hl)
        refine ⟨buf', jw', ?_, h2, ?_, hflag jw' h4⟩
        · have e : min (Y + 1 + (0 + bs.length) / W) (H - 1)
              = min (Y + ((0 + bs.length) / W + 1)) (H - 1) := by
            generalize (0 + bs.length) / W = q
            omega
          simp only [ingest_all, ingest_byte_wrap buf W H X Y jw b hcr hlf hXW hlast hl,
            Option.some_bind, h1, e]
        · simp only [rows_advanced, row_delta_wrap buf W H X Y jw b hcr hlf hXW hY hl,
            ingest_byte_wrap buf W H X Y jw b hcr hlf hXW hlast hl, Option.some_bind, h3,
            Option.map_some']
          congr 1
          push_cast; ring
      · obtain ⟨buf', jw', h1, h2, h3, h4⟩ :=
          ih hbs' ((buf.set (Y * W + X) b).drop W ++ List.replicate W 0) 0 Y true (by omega) hY
            (length_set_drop_append buf W H _ b (by omega) hl)
        refine ⟨buf', jw', ?_, h2, ?_, hflag jw' h4⟩
        · have e : min (Y + (0 + bs.length) / W) (H - 1)
              = min (Y + ((0 + bs.length) / W + 1)) (H - 1) := by
            generalize (0 + bs.length) / W = q
            omega
          simp only [ingest_all,
            ingest_byte_scroll buf W H X Y jw b hcr hlf hXW (by omega) hl,
            Option.some_bind, h1, e]
        · simp only [rows_advanced, row_delta_wrap buf W H X Y jw b hcr hlf hXW hY hl,
            ingest_byte_scroll buf W H X Y jw b hcr hlf hXW (by omega) hl, Option.some_bind, h3,
            Option.map_some']
          congr 1
          push_cast; ring

theorem ingest_all_append (t : Term) (as bs : List Nat) :
    ingest_all t (as ++ bs) = (ingest_all t as).bind fun t1 => ingest_all t1 bs := by
  induction as generalizing t with
  | nil => simp [ingest_all]
  | cons a as ih =>
    simp only [List.cons_append, ingest_all]
    cases h : ingest t a with
    | none => simp
    | some t1 => simp [ih]

/-- A full row of regular bytes from column 0 ends with `just_wrapped` set, at column 0
of a row inside the grid. -/
theorem full_row (W H : Nat) (hW : 1 ≤ W) (bs : List Nat) (hbs : ∀ b ∈ bs, b ≠ CR ∧ b ≠ LF)
    (hL : bs.length = W) (buf : List Nat) (Y : Nat) (jw : Bool) (hY : Y < H)
    (hl : buf.length = W * H) :
    ∃ (buf' : List Nat),
      ingest_all ⟨atCell buf W H 0 Y, jw⟩ bs
        = some ⟨atCell buf' W H 0 (min (Y + 1) (H - 1)), true⟩ ∧ buf'.length = W * H := by
  obtain ⟨buf', jw', h1, h2, _, h4⟩ := regular_run W H hW bs hbs buf 0 Y jw (by omega) hY hl
  have hne : bs ≠ [] := by
    intro h; rw [h] at hL; simp at hL; omega
  rw [if_neg hne, Nat.zero_add, hL, Nat.mod_self] at h4
  rw [Nat.zero_add, hL, Nat.mod_self, Nat.div_self (by omega)] at h1
  simp at h4
  subst h4
  exact ⟨buf', h1, h2⟩

/-! ## Plain text in the first row -/

theorem x11_init_atCell (W H : Nat) :
    x11_init (W : Int) (H : Int) = atCell (List.replicate (W * H) 0) W H 0 0 := by
  have h : ((W : Int) * (H : Int)).toNat = W * H := by
    rw [← Nat.cast_mul, Int.toNat_ofNat]
  simp [x11_init, atCell, h]

theorem set_behind_text (pre : List Nat) (n b : Nat) (hn : 1 ≤ n) :
    (pre ++ List.replicate n 0).set pre.length b = (pre ++ [b]) ++ List.replicate (n - 1) 0 := by
  obtain ⟨m, rfl⟩ : ∃ m, n = m + 1 := ⟨n - 1, by omega⟩
  rw [List.set_append_right _ _ (le_refl _), Nat.sub_self, List.replicate_succ,
    List.set_cons_zero]
  simp

/-- Regular bytes written into row 0 behind a prefix, short of the last column. -/
theorem plain_text_run (W H : Nat) (hH : 1 ≤ H) (s : List Nat)
    (hs : ∀ b ∈ s, b ≠ CR ∧ b ≠ LF) :
    ∀ (pre : List Nat) (jw : Bool), pre.length + s.length < W →
      ∃ jw' : Bool,
        ingest_all ⟨atCell (pre ++ List.replicate (W * H - pre.length) 0) W H pre.length 0, jw⟩ s
          = some ⟨atCell (pre ++ s ++ List.replicate (W * H - (pre.length + s.length)) 0) W H
              (pre.length + s.length) 0, jw'⟩ := by
  induction s with
  | nil =>
    intro pre jw _
    exact ⟨jw, by simp [ingest_all]⟩
  | cons b s ih =>
    intro pre jw hlen
    obtain ⟨hcr, hlf⟩ := hs b (List.mem_cons_self _ _)
    have hs' : ∀ c ∈ s, c ≠ CR ∧ c ≠ LF := fun c hc => hs c (List.mem_cons_of_mem _ hc)
    simp only [List.length_cons] at hlen
    have hWH : W ≤ W * H := Nat.le_mul_of_pos_right W (by omega)
    have hl : (pre ++ List.replicate (W * H - pre.length) 0).length = W * H := by
      simp; omega
    have hstep := ingest_byte_inside (pre ++ List.replicate (W * H - pre.length) 0) W H
      pre.length 0 jw b hcr hlf (by omega) (by omega) hl
    rw [Nat.zero_mul, Nat.zero_add, set_behind_text pre _ b (by omega)] at hstep
    obtain ⟨jw', h⟩ := ih hs' (pre ++ [b]) false (by simp; omega)
    refine ⟨jw', ?_⟩
    simp only [ingest_all, hstep, Option.some_bind]
    have e1 : (pre ++ [b]).length = pre.length + 1 := by simp
    have e2 : W * H - pre.length - 1 = W * H - (pre ++ [b]).length := by rw [e1]; omega
    rw [e2, ← e1, h]
    have e3 : (pre ++ [b]).length + s.length = pre.length + (b :: s).length := by
      simp; omega
    rw [e3]
    simp

/-! ## What the cells can hold -/

/-- After one byte every cell holds what some cell held before, a zero, or the byte just
ingested, which then is a regular one. -/
theorem ingest_cells (t : Term) (b : Nat) (hv : valid t.x11) :
    ∃ t', ingest t b = some t' ∧
      ∀ c ∈ t'.x11.buf, c ∈ t.x11.buf ∨ c = 0 ∨ (c = b ∧ b ≠ CR ∧ b ≠ LF) := by
  obtain ⟨buf, W, H, X, Y, jw, rfl, hW, hH, hX, hY, hl⟩ := term_atCell t hv
  have hset : ∀ (i : Nat) (c : Nat), b ≠ CR → b ≠ LF → c ∈ buf.set i b →
      c ∈ buf ∨ c = 0 ∨ (c = b ∧ b ≠ CR ∧ b ≠ LF) := by
    intro i c h1 h2 hc
    rcases List.mem_or_eq_of_mem_set hc with h | h
    · exact Or.inl h
    · exact Or.inr (Or.inr ⟨h, h1, h2⟩)
  have hshift : ∀ (l : List Nat) (c : Nat), c ∈ l.drop W ++ List.replicate W 0 →
      c ∈ l ∨ c = 0 := by
    intro l c hc
    rcases List.mem_append.mp hc with h | h
    · exact Or.inl (List.mem_of_mem_drop h)
    · exact Or.inr (List.eq_of_mem_replicate h)
  by_cases hcr : b = CR
  · subst hcr
    exact ⟨_, ingest_cr _, fun c hc => Or.inl hc⟩
  by_cases hlf : b = LF
  · subst hlf
    cases jw with
    | true => exact ⟨_, ingest_lf_suppressed _ (by simp; omega), fun c hc => Or.inl hc⟩
    | false =>
      by_cases hlast : Y + 1 < H
      · exact ⟨_, ingest_lf_down buf W H X Y hlast, fun c hc => Or.inl hc⟩
      · refine ⟨_, ingest_lf_scroll buf W H X Y (by omega) hl, fun c hc => ?_⟩
        rcases hshift buf c hc with h | h
        · exact Or.inl h
        · exact Or.inr (Or.inl h)
  by_cases hcol : X + 1 < W
  · exact ⟨_, ingest_byte_inside buf W H X Y jw b hcr hlf hcol hY hl,
      fun c hc => hset _ c hcr hlf hc⟩
  by_cases hlast : Y + 1 < H
  · exact ⟨_, ingest_byte_wrap buf W H X Y jw b hcr hlf (by omega) hlast hl,
      fun c hc => hset _ c hcr hlf hc⟩
  · refine ⟨_, ingest_byte_scroll buf W H X Y jw b hcr hlf (by omega) (by omega) hl,
      fun c hc => ?_⟩
    rcases hshift _ c hc with h | h
    · exact hset _ c hcr hlf h
    · exact Or.inr (Or.inl h)

/-- After a byte sequence every cell holds what some cell held before, a zero, or one of
the regular bytes of the sequence. -/
theorem ingest_all_cells (bs : List Nat) (t : Term) (hv : valid t.x11) :
    ∃ t', ingest_all t bs = some t' ∧
      ∀ c ∈ t'.x11.buf, c ∈ t.x11.buf ∨ c = 0 ∨ (c ∈ bs ∧ c ≠ CR ∧ c ≠ LF) := by
  induction bs generalizing t with
  | nil => exact ⟨t, rfl, fun c hc => Or.inl hc⟩
  | cons b bs ih =>
    obtain ⟨t1, h1, hv1, _, _⟩ := ingest_valid t b hv
    obtain ⟨t1', h1', hc1⟩ := ingest_cells t b hv
    rw [h1] at h1'
    cases Option.some.inj h1'
    obtain ⟨t2, h2, hc2⟩ := ih t1 hv1
    refine ⟨t2, by simp [ingest_all, h1, h2], fun c hc => ?_⟩
    rcases hc2 c hc with h | h | ⟨h, h', h''⟩
    · rcases hc1 c h with g | g | ⟨g, g', g''⟩
      · exact Or.inl g
      · exact Or.inr (Or.inl g)
      · exact Or.inr (Or.inr ⟨by rw [g]; exact List.mem_cons_self _ _, by rw [g]; exact g',
          by rw [g]; exact g''⟩)
    · exact Or.inr (Or.inl h)
    · exact Or.inr (Or.inr ⟨List.mem_cons_of_mem _ h, h', h''⟩)

/-! ## The shift -/

theorem advance_regular (buf : List Nat) (W H X Y : Nat) (jw : Bool) (b : Nat) (hlf : b ≠ LF)
    (hX : X < W) (hY : Y < H) (hl : buf.length = W * H) :
    advance ⟨atCell buf W H X Y, jw⟩ b
      = some (if X + 1 < W then ⟨atCell (buf.set (Y * W + X) b) W H (X + 1) Y, false⟩
          else ⟨atCell (buf.set (Y * W + X) b) W H 0 (Y + 1), true⟩) := by
  unfold advance
  simp only [hlf, ne_eq, not_false_eq_true, if_true]
  rw [store_cell buf W H X Y b hX hY hl]
  simp only [Option.map_some', ge_iff_le]
  by_cases hcol : X + 1 < W
  · rw [if_neg (by omega), if_pos hcol]; simp
  · rw [if_pos (by omega), if_neg hcol]; simp

theorem advance_lf (x : X11win) (jw : Bool) :
    advance ⟨x, jw⟩ LF
      = some (if jw then ⟨x, jw⟩ else ⟨{ x with buf_y := x.buf_y + 1 }, false⟩) := by
  unfold advance
  cases jw <;> simp

/-- When the cursor row leaves the grid: a newline in the last row with `just_wrapped`
clear, or a regular byte written into the last cell. -/
theorem past_last_row_iff (buf : List Nat) (W H X Y : Nat) (jw : Bool) (b : Nat)
    (hX : X < W) (hY : Y < H) (hl : buf.length = W * H) :
    past_last_row ⟨atCell buf W H X Y, jw⟩ b ↔
      (b = LF ∧ Y + 1 = H ∧ jw = false) ∨ (b ≠ CR ∧ b ≠ LF ∧ Y + 1 = H ∧ X + 1 = W) := by
  unfold past_last_row
  by_cases hcr : b = CR
  · subst hcr
    constructor
    · rintro ⟨h, _⟩; exact absurd rfl h
    · rintro (⟨h, _⟩ | ⟨h, _⟩)
      · exact absurd h (by decide)
      · exact absurd rfl h
  by_cases hlf : b = LF
  · subst hlf
    rw [advance_lf]
    cases jw with
    | true =>
      constructor
      · rintro ⟨_, t1, h, hy⟩
        cases Option.some.inj h
        have h' : (H : Int) ≤ (Y : Int) := hy
        omega
      · rintro (⟨_, _, h⟩ | ⟨_, h, _⟩)
        · exact absurd h (by decide)
        · exact absurd rfl h
    | false =>
      constructor
      · rintro ⟨_, t1, h, hy⟩
        cases Option.some.inj h
        have h' : (H : Int) ≤ (Y : Int) + 1 := hy
        exact Or.inl ⟨rfl, by omega, rfl⟩
      · rintro (⟨_, h, _⟩ | ⟨_, h, _⟩)
        · exact ⟨hcr, _, rfl, (show (H : Int) ≤ (Y : Int) + 1 by omega)⟩
        · exact absurd rfl h
  · rw [advance_regular buf W H X Y jw b hlf hX hY hl]
    by_cases hcol : X + 1 < W
    · rw [if_pos hcol]
      constructor
      · rintro ⟨_, t1, h, hy⟩
        cases Option.some.inj h
        have h' : (H : Int) ≤ (Y : Int) := hy
        omega
      · rintro (⟨h, _⟩ | ⟨_, _, _, h⟩)
        · exact absurd h hlf
        · omega
    · rw [if_neg hcol]
      constructor
      · rintro ⟨_, t1, h, hy⟩
        cases Option.some.inj h
        have h' : (H : Int) ≤ ((Y + 1 : Nat) : Int) := hy
        exact Or.inr ⟨hcr, hlf, by omega, by omega⟩
      · rintro (⟨h, _⟩ | ⟨_, _, h, _⟩)
        · exact absurd h hlf
        · exact ⟨hcr, _, rfl, (show (H : Int) ≤ ((Y + 1 : Nat) : Int) by omega)⟩

theorem stored_buf_regular (buf : List Nat) (W H X Y : Nat) (jw : Bool) (b : Nat)
    (hcr : b ≠ CR) (hlf : b ≠ LF) :
    stored_buf ⟨atCell buf W H X Y, jw⟩ b = buf.set (Y * W + X) b := by
  unfold stored_buf
  rw [if_neg (by simp [hcr, hlf])]
  have h : ((Y : Int) * (W : Int) + (X : Int)).toNat = Y * W + X := by
    rw [← Nat.cast_mul, ← Nat.cast_add, Int.toNat_ofNat]
  simp only [h]

theorem stored_buf_control (t : Term) (b : Nat) (h : b = CR ∨ b = LF) :
    stored_buf t b = t.x11.buf := by
  unfold stored_buf
  rw [if_pos h]

/-- Cells of a buffer moved up by one row, above the last row. -/
theorem shifted_cell (l : List Nat) (W H i j : Nat) (hi : i + 1 < H) (hj : j < W)
    (hl : l.length = W * H) :
    (l.drop W ++ List.replicate W 0)[i * W + j]? = l[(i + 1) * W + j]? := by
  have h1 : (i + 1) * W + j < W * H := cell_index_lt W H j (i + 1) hj hi
  have h2 : (i + 1) * W + j = W + (i * W + j) := by ring
  rw [List.getElem?_append_left (by simp; omega), List.getElem?_drop, h2]

/-- Cells of the last row of a buffer moved up by one row. -/
theorem cleared_cell (l : List Nat) (W H j : Nat) (hH : 1 ≤ H) (hj : j < W)
    (hl : l.length = W * H) :
    (l.drop W ++ List.replicate W 0)[(H - 1) * W + j]? = some 0 := by
  obtain ⟨K, rfl⟩ : ∃ K, H = K + 1 := ⟨H - 1, by omega⟩
  have h1 : W * (K + 1) = K * W + W := by ring
  have h2 : (l.drop W).length = K * W := by simp; omega
  rw [Nat.add_sub_cancel, List.getElem?_append_right (by omega), h2,
    List.getElem?_replicate, if_pos (by omega)]

/-! ## Claims -/

/-- C1 (cursor invariant of byte ingestion): on a grid with `W ≥ 1` and `H ≥ 1`, the
per-byte block of `run()` is defined on every state whose cursor satisfies
`0 ≤ buf_x < W` and `0 ≤ buf_y < H` (any `just_wrapped`, any byte) and yields a state
whose cursor satisfies the same bounds; hence after any byte sequence ingested from the
initial state the cursor is on a cell and the index `buf_y * W + buf_x` is inside the
block of `W * H` bytes. -/
theorem C1_cursor_invariant (W H : Int) (hW : 1 ≤ W) (hH : 1 ≤ H) :
    (∀ (t : Term) (b : Nat), t.x11.buf_w = W → t.x11.buf_h = H →
        (t.x11.buf.length : Int) = W * H →
        0 ≤ t.x11.buf_x → t.x11.buf_x < W → 0 ≤ t.x11.buf_y → t.x11.buf_y < H →
        ∃ t', ingest t b = some t' ∧ t'.x11.buf_w = W ∧ t'.x11.buf_h = H ∧
          (t'.x11.buf.length : Int) = W * H ∧
          0 ≤ t'.x11.buf_x ∧ t'.x11.buf_x < W ∧ 0 ≤ t'.x11.buf_y ∧ t'.x11.buf_y < H) ∧
    (∀ bs : List Nat, ∃ t', ingest_all (run_init (x11_init W H)) bs = some t' ∧
        0 ≤ t'.x11.buf_x ∧ t'.x11.buf_x < W ∧ 0 ≤ t'.x11.buf_y ∧ t'.x11.buf_y < H ∧
        0 ≤ t'.x11.buf_y * W + t'.x11.buf_x ∧
        t'.x11.buf_y * W + t'.x11.buf_x < (t'.x11.buf.length : Int) ∧
        (t'.x11.buf.length : Int) = W * H) := by
  constructor
  · intro t b hw hh hl hx0 hx hy0 hy
    have hv : valid t.x11 := ⟨by omega, by omega, by rw [hl, hw, hh], hx0, by omega, hy0, by omega⟩
    obtain ⟨t', h, hv', hw', hh'⟩ := ingest_valid t b hv
    obtain ⟨_, _, hl', hx0', hx', hy0', hy'⟩ := hv'
    rw [hw', hw] at hx' hl'
    rw [hh', hh] at hy' hl'
    exact ⟨t', h, by rw [hw', hw], by rw [hh', hh], hl', hx0', hx', hy0', hy'⟩
  · intro bs
    obtain ⟨t', h, hv', hw', hh'⟩ :=
      ingest_all_valid bs (run_init (x11_init W H)) (x11_init_valid W H hW hH)
    have hi := valid_index _ hv'
    obtain ⟨_, _, hl', hx0', hx', hy0', hy'⟩ := hv'
    have hw2 : t'.x11.buf_w = W := hw'
    have hh2 : t'.x11.buf_h = H := hh'
    rw [hw2] at hx' hl' hi
    rw [hh2] at hy' hl' hi
    exact ⟨t', h, hx0', hx', hy0', hy', hi.1, by rw [hl']; exact hi.2, hl'⟩

theorem C1_cursor_invariant_witness :
    (∃ t', ingest ⟨⟨[97, 98, 99, 0], 2, 2, 1, 1⟩, false⟩ 100 = some t' ∧ t'.x11.buf_w = 2 ∧
        t'.x11.buf_h = 2 ∧ (t'.x11.buf.length : Int) = 2 * 2 ∧
        0 ≤ t'.x11.buf_x ∧ t'.x11.buf_x < 2 ∧ 0 ≤ t'.x11.buf_y ∧ t'.x11.buf_y < 2) ∧
    (∃ t', ingest_all (run_init (x11_init 2 2)) [97, 98, 10, 99, 100, 101] = some t' ∧
        0 ≤ t'.x11.buf_x ∧ t'.x11.buf_x < 2 ∧ 0 ≤ t'.x11.buf_y ∧ t'.x11.buf_y < 2 ∧
        0 ≤ t'.x11.buf_y * 2 + t'.x11.buf_x ∧
        t'.x11.buf_y * 2 + t'.x11.buf_x < (t'.x11.buf.length : Int) ∧
        (t'.x11.buf.length : Int) = 2 * 2) :=
  ⟨(C1_cursor_invariant 2 2 (by decide) (by decide)).1 ⟨⟨[97, 98, 99, 0], 2, 2, 1, 1⟩, false⟩ 100
      rfl rfl (by decide) (by decide) (by decide) (by decide) (by decide),
   (C1_cursor_invariant 2 2 (by decide) (by decide)).2 [97, 98, 10, 99, 100, 101]⟩

/-- C2 (wrap invariant): for every sequence of `L` bytes none of which is CR or LF, ingested
one at a time from a consistent state with `buf_x = 0` and `buf_y = y0`, the ingestion
yields a state, the resulting `buf_x` is `L mod W`, the number of rows advanced by `buf_y++` is
`L / W`, the resulting `buf_y` is `min (y0 + L / W) (H - 1)`, which is `y0 + L / W` when
`y0 + L / W < H`; for `L = W` the cursor is at column 0, of row `y0 + 1` when that row
exists. -/
theorem C2_wrap_invariant (t : Term) (bs : List Nat) (hv : valid t.x11)
    (hx : t.x11.buf_x = 0) (hbs : ∀ b ∈ bs, b ≠ CR ∧ b ≠ LF) :
    ∃ t', ingest_all t bs = some t' ∧
      t'.x11.buf_x = (bs.length : Int) % t.x11.buf_w ∧
      rows_advanced t bs = some ((bs.length : Int) / t.x11.buf_w) ∧
      t'.x11.buf_y = min (t.x11.buf_y + (bs.length : Int) / t.x11.buf_w) (t.x11.buf_h - 1) ∧
      (t.x11.buf_y + (bs.length : Int) / t.x11.buf_w < t.x11.buf_h →
        t'.x11.buf_y = t.x11.buf_y + (bs.length : Int) / t.x11.buf_w) ∧
      ((bs.length : Int) = t.x11.buf_w →
        t'.x11.buf_x = 0 ∧ (t.x11.buf_y + 1 < t.x11.buf_h → t'.x11.buf_y = t.x11.buf_y + 1)) := by
  obtain ⟨buf, W, H, X, Y, jw, rfl, hW, hH, hX, hY, hl⟩ := term_atCell t hv
  have hX0 : X = 0 := by
    have hx' : (X : Int) = 0 := hx
    exact_mod_cast hx'
  subst hX0
  obtain ⟨buf', jw', h1, _, h3, _⟩ := regular_run W H hW bs hbs buf 0 Y jw hX hY hl
  rw [Nat.zero_add] at h1 h3
  have hy' : (((min (Y + bs.length / W) (H - 1) : Nat) : Int))
      = min ((Y : Int) + (bs.length : Int) / (W : Int)) ((H : Int) - 1) := by
    have hq : ((bs.length / W : Nat) : Int) = (bs.length : Int) / (W : Int) := by push_cast; rfl
    rw [← hq]
    generalize bs.length / W = q
    omega
  refine ⟨_, h1, ?_, ?_, hy', ?_, ?_⟩
  · show ((bs.length % W : Nat) : Int) = _
    push_cast; rfl
  · rw [h3]; push_cast; rfl
  · intro hlt
    show (((min (Y + bs.length / W) (H - 1) : Nat) : Int)) = _
    rw [hy']
    exact min_eq_left (by simp only at hlt; omega)
  · intro hL
    have hLW : bs.length = W := by
      have hL' : (bs.length : Int) = (W : Int) := hL
      exact_mod_cast hL'
    constructor
    · show ((bs.length % W : Nat) : Int) = _
      rw [hLW, Nat.mod_self]; rfl
    · intro hlt
      show (((min (Y + bs.length / W) (H - 1) : Nat) : Int)) = _
      rw [hLW, Nat.div_self (by omega)]
      simp only at hlt
      have : min (Y + 1) (H - 1) = Y + 1 := by omega
      rw [this]; push_cast; rfl

theorem C2_wrap_invariant_witness :
    ∃ t', ingest_all ⟨⟨[0, 0, 0, 0, 0, 0], 2, 3, 0, 1⟩, true⟩ [97, 98, 99] = some t' ∧
      t'.x11.buf_x = ((3 : Nat) : Int) % 2 ∧
      rows_advanced ⟨⟨[0, 0, 0, 0, 0, 0], 2, 3, 0, 1⟩, true⟩ [97, 98, 99]
        = some (((3 : Nat) : Int) / 2) ∧
      t'.x11.buf_y = min (1 + ((3 : Nat) : Int) / 2) (3 - 1) ∧
      (1 + ((3 : Nat) : Int) / 2 < 3 → t'.x11.buf_y = 1 + ((3 : Nat) : Int) / 2) ∧
      (((3 : Nat) : Int) = 2 → t'.x11.buf_x = 0 ∧ ((1 : Int) + 1 < 3 → t'.x11.buf_y = 1 + 1)) :=
  C2_wrap_invariant ⟨⟨[0, 0, 0, 0, 0, 0], 2, 3, 0, 1⟩, true⟩ [97, 98, 99] (by decide) rfl
    (by decide)

/-- C3 (scroll correctness): on a consistent state of a `W` x `H` grid the per-byte block
yields a state, and it moves the cursor row past the last row exactly for an LF at `buf_y = H - 1`
with `just_wrapped` clear or a byte other than CR and LF written at cell `(H - 1, W - 1)`.
In that case row `i` of the result equals row `i + 1` of the buffer as it was after the byte,
if any, was stored, for every `i` in `[0, H - 2]`, the last row is all zero bytes and
`buf_y = H - 1`.  In every other case the result is the buffer with the byte, if any,
stored: no row is shifted or cleared. -/
theorem C3_scroll_correctness (t : Term) (b : Nat) (W H : Nat) (hv : valid t.x11)
    (hw : t.x11.buf_w = (W : Int)) (hh : t.x11.buf_h = (H : Int)) :
    ∃ t', ingest t b = some t' ∧
      (past_last_row t b ↔
        (b = LF ∧ t.x11.buf_y = (H : Int) - 1 ∧ t.just_wrapped = false) ∨
        (b ≠ CR ∧ b ≠ LF ∧ t.x11.buf_y = (H : Int) - 1 ∧ t.x11.buf_x = (W : Int) - 1)) ∧
      (past_last_row t b →
        (∀ i j : Nat, i + 1 < H → j < W →
          t'.x11.buf[i * W + j]? = (stored_buf t b)[(i + 1) * W + j]?) ∧
        (∀ j : Nat, j < W → t'.x11.buf[(H - 1) * W + j]? = some 0) ∧
        t'.x11.buf_y = (H : Int) - 1) ∧
      (¬ past_last_row t b → t'.x11.buf = stored_buf t b) := by
  obtain ⟨buf, W', H', X, Y, jw, rfl, hW, hH, hX, hY, hl⟩ := term_atCell t hv
  have hW' : W' = W := by
    have h : (W' : Int) = (W : Int) := hw
    exact_mod_cast h
  have hH' : H' = H := by
    have h : (H' : Int) = (H : Int) := hh
    exact_mod_cast h
  subst hW' hH'
  have hiff := past_last_row_iff buf W' H' X Y jw b hX hY hl
  have hchar : past_last_row ⟨atCell buf W' H' X Y, jw⟩ b ↔
      (b = LF ∧ (Y : Int) = (H' : Int) - 1 ∧ jw = false) ∨
      (b ≠ CR ∧ b ≠ LF ∧ (Y : Int) = (H' : Int) - 1 ∧ (X : Int) = (W' : Int) - 1) := by
    rw [hiff]
    constructor
    · rintro (⟨h1, h2, h3⟩ | ⟨h1, h2, h3, h4⟩)
      · exact Or.inl ⟨h1, by omega, h3⟩
      · exact Or.inr ⟨h1, h2, by omega, by omega⟩
    · rintro (⟨h1, h2, h3⟩ | ⟨h1, h2, h3, h4⟩)
      · exact Or.inl ⟨h1, by omega, h3⟩
      · exact Or.inr ⟨h1, h2, by omega, by omega⟩
  by_cases hcr : b = CR
  · have hnot : ¬ past_last_row ⟨atCell buf W' H' X Y, jw⟩ b := fun h => h.1 hcr
    refine ⟨_, by rw [hcr]; exact ingest_cr _, hchar, fun h => absurd h hnot, fun _ => ?_⟩
    rw [stored_buf_control _ _ (Or.inl hcr)]
  by_cases hlf : b = LF
  · subst hlf
    have hst : stored_buf ⟨atCell buf W' H' X Y, jw⟩ LF = buf :=
      stored_buf_control _ _ (Or.inr rfl)
    cases jw with
    | true =>
      have hnot : ¬ past_last_row ⟨atCell buf W' H' X Y, true⟩ LF := by
        rw [hiff]
        rintro (⟨_, _, h⟩ | ⟨_, h, _⟩)
        · exact absurd h (by decide)
        · exact h rfl
      exact ⟨_, ingest_lf_suppressed _ (by simp only [Nat.cast_lt]; omega), hchar,
        fun h => absurd h hnot, fun _ => hst.symm⟩
    | false =>
      by_cases hlast : Y + 1 < H'
      · have hnot : ¬ past_last_row ⟨atCell buf W' H' X Y, false⟩ LF := by
          rw [hiff]
          rintro (⟨_, h, _⟩ | ⟨_, h, _⟩)
          · omega
          · exact h rfl
        exact ⟨_, ingest_lf_down buf W' H' X Y hlast, hchar,
          fun h => absurd h hnot, fun _ => hst.symm⟩
      · have hyes : past_last_row ⟨atCell buf W' H' X Y, false⟩ LF := by
          rw [hiff]
          exact Or.inl ⟨rfl, by omega, rfl⟩
        refine ⟨_, ingest_lf_scroll buf W' H' X Y (by omega) hl, hchar, fun _ => ⟨?_, ?_, ?_⟩,
          fun h => absurd hyes h⟩
        · intro i j hi hj
          rw [hst]
          exact shifted_cell buf W' H' i j hi hj hl
        · intro j hj
          exact cleared_cell buf W' H' j hH hj hl
        · show (Y : Int) = (H' : Int) - 1
          omega
  have hst : stored_buf ⟨atCell buf W' H' X Y, jw⟩ b = buf.set (Y * W' + X) b :=
    stored_buf_regular buf W' H' X Y jw b hcr hlf
  by_cases hcol : X + 1 < W'
  · have hnot : ¬ past_last_row ⟨atCell buf W' H' X Y, jw⟩ b := by
      rw [hiff]
      rintro (⟨h, _⟩ | ⟨_, _, _, h⟩)
      · exact hlf h
      · omega
    exact ⟨_, ingest_byte_inside buf W' H' X Y jw b hcr hlf hcol hY hl, hchar,
      fun h => absurd h hnot, fun _ => hst.symm⟩
  by_cases hlast : Y + 1 < H'
  · have hnot : ¬ past_last_row ⟨atCell buf W' H' X Y, jw⟩ b := by
      rw [hiff]
      rintro (⟨h, _⟩ | ⟨_, _, h, _⟩)
      · exact hlf h
      · omega
    exact ⟨_, ingest_byte_wrap buf W' H' X Y jw b hcr hlf (by omega) hlast hl, hchar,
      fun h => absurd h hnot, fun _ => hst.symm⟩
  · have hyes : past_last_row ⟨atCell buf W' H' X Y, jw⟩ b := by
      rw [hiff]
      exact Or.inr ⟨hcr, hlf, by omega, by omega⟩
    refine ⟨_, ingest_byte_scroll buf W' H' X Y jw b hcr hlf (by omega) (by omega) hl, hchar,
      fun _ => ⟨?_, ?_, ?_⟩, fun h => absurd hyes h⟩
    · intro i j hi hj
      rw [hst]
      exact shifted_cell _ W' H' i j hi hj (by simpa using hl)
    · intro j hj
      exact cleared_cell _ W' H' j hH hj (by simpa using hl)
    · show (Y : Int) = (H' : Int) - 1
      omega

theorem C3_scroll_correctness_witness :
    ∃ t', ingest ⟨⟨[97, 98, 99, 0], 2, 2, 1, 1⟩, false⟩ 100 = some t' ∧
      (past_last_row ⟨⟨[97, 98, 99, 0], 2, 2, 1, 1⟩, false⟩ 100 ↔
        (100 = LF ∧ (1 : Int) = ((2 : Nat) : Int) - 1 ∧ false = false) ∨
        (100 ≠ CR ∧ 100 ≠ LF ∧ (1 : Int) = ((2 : Nat) : Int) - 1 ∧
          (1 : Int) = ((2 : Nat) : Int) - 1)) ∧
      (past_last_row ⟨⟨[97, 98, 99, 0], 2, 2, 1, 1⟩, false⟩ 100 →
        (∀ i j : Nat, i + 1 < 2 → j < 2 →
          t'.x11.buf[i * 2 + j]?
            = (stored_buf ⟨⟨[97, 98, 99, 0], 2, 2, 1, 1⟩, false⟩ 100)[(i + 1) * 2 + j]?) ∧
        (∀ j : Nat, j < 2 → t'.x11.buf[(2 - 1) * 2 + j]? = some 0) ∧
        t'.x11.buf_y = ((2 : Nat) : Int) - 1) ∧
      (¬ past_last_row ⟨⟨[97, 98, 99, 0], 2, 2, 1, 1⟩, false⟩ 100 →
        t'.x11.buf = stored_buf ⟨⟨[97, 98, 99, 0], 2, 2, 1, 1⟩, false⟩ 100) :=
  C3_scroll_correctness ⟨⟨[97, 98, 99, 0], 2, 2, 1, 1⟩, false⟩ 100 2 2 (by decide) rfl rfl

/-- C4 (suppressed double-advance): from every consistent state with `buf_x = 0`, ingesting
exactly `W` bytes that are neither CR nor LF and then one LF is defined; the state right
after the `W`-th byte has `just_wrapped` set and sits at column 0 of the wrap-induced row
`min (buf_y + 1) (H - 1)`, and the LF step changes neither `buf_x`, `buf_y` nor any cell. -/
theorem C4_suppressed_double_advance (t : Term) (bs : List Nat) (hv : valid t.x11)
    (hx : t.x11.buf_x = 0) (hL : (bs.length : Int) = t.x11.buf_w)
    (hbs : ∀ b ∈ bs, b ≠ CR ∧ b ≠ LF) :
    ∃ t1 t2, ingest_all t bs = some t1 ∧ ingest t1 LF = some t2 ∧
      ingest_all t (bs ++ [LF]) = some t2 ∧
      t1.x11.buf_y = min (t.x11.buf_y + 1) (t.x11.buf_h - 1) ∧
      t2.x11.buf_y = t1.x11.buf_y ∧ t2.x11.buf_x = t1.x11.buf_x ∧ t2.x11.buf = t1.x11.buf := by
  obtain ⟨buf, W, H, X, Y, jw, rfl, hW, hH, hX, hY, hl⟩ := term_atCell t hv
  have hX0 : X = 0 := by
    have hx' : (X : Int) = 0 := hx
    exact_mod_cast hx'
  have hLW : bs.length = W := by
    have hL' : (bs.length : Int) = (W : Int) := hL
    exact_mod_cast hL'
  subst hX0
  obtain ⟨buf', h1, _⟩ := full_row W H hW bs hbs hLW buf Y jw hY hl
  have h2 := ingest_lf_suppressed (atCell buf' W H 0 (min (Y + 1) (H - 1)))
    (by simp only [Nat.cast_lt]; omega)
  refine ⟨_, _, h1, h2, ?_, ?_, rfl, rfl, rfl⟩
  · rw [ingest_all_append, h1]
    simp [ingest_all, h2]
  · show ((min (Y + 1) (H - 1) : Nat) : Int) = min ((Y : Int) + 1) ((H : Int) - 1)
    omega

theorem C4_suppressed_double_advance_witness :
    ∃ t1 t2, ingest_all ⟨⟨[0, 0, 0, 0, 0, 0], 2, 3, 0, 1⟩, false⟩ [97, 98] = some t1 ∧
      ingest t1 LF = some t2 ∧
      ingest_all ⟨⟨[0, 0, 0, 0, 0, 0], 2, 3, 0, 1⟩, false⟩ ([97, 98] ++ [LF]) = some t2 ∧
      t1.x11.buf_y = min ((1 : Int) + 1) (3 - 1) ∧
      t2.x11.buf_y = t1.x11.buf_y ∧ t2.x11.buf_x = t1.x11.buf_x ∧ t2.x11.buf = t1.x11.buf :=
  C4_suppressed_double_advance ⟨⟨[0, 0, 0, 0, 0, 0], 2, 3, 0, 1⟩, false⟩ [97, 98] (by decide) rfl
    rfl (by decide)

/-- C5 (the code at the failing input): on the 80 x 25 grid `x11_setup` creates, after 80
bytes `'a'` from the initial state the first LF leaves `just_wrapped` set, and the second LF
is suppressed as well: the cursor is still at row 1, column 0, with `just_wrapped` set. -/
theorem C5_lf_keeps_just_wrapped :
    ∃ t1 t2 t3, ingest_all (run_init x11_setup_buf) (List.replicate 80 97) = some t1 ∧
      t1.x11.buf_y = 1 ∧ t1.just_wrapped = true ∧
      ingest t1 LF = some t2 ∧ t2.just_wrapped = true ∧
      ingest t2 LF = some t3 ∧ t3.x11.buf_y = 1 ∧ t3.x11.buf_x = 0 ∧ t3.just_wrapped = true := by
  have hbs : ∀ b ∈ List.replicate 80 97, b ≠ CR ∧ b ≠ LF := by
    intro b hb
    rw [List.eq_of_mem_replicate hb]
    decide
  obtain ⟨buf', h1, _⟩ := full_row 80 25 (by decide) (List.replicate 80 97) hbs (by simp)
    (List.replicate 2000 0) 0 false (by decide) (by rw [List.length_replicate])
  have h0 : run_init x11_setup_buf = ⟨atCell (List.replicate 2000 0) 80 25 0 0, false⟩ := rfl
  have h2 := ingest_lf_suppressed (atCell buf' 80 25 0 (min (0 + 1) (25 - 1)))
    (show ((min (0 + 1) (25 - 1) : Nat) : Int) < ((25 : Nat) : Int) by decide)
  exact ⟨_, _, _, h0 ▸ h1, rfl, rfl, h2, rfl, h2, rfl, rfl, rfl⟩

/-- C6 (carriage return): in every state, ingesting `'\r'` sets `buf_x` to 0 and leaves
`buf_y`, every cell of the buffer, the grid dimensions and `just_wrapped` unchanged. -/
theorem C6_carriage_return (t : Term) :
    ∃ t', ingest t CR = some t' ∧ t'.x11.buf_x = 0 ∧ t'.x11.buf_y = t.x11.buf_y ∧
      t'.x11.buf = t.x11.buf ∧ t'.just_wrapped = t.just_wrapped ∧
      t'.x11.buf_w = t.x11.buf_w ∧ t'.x11.buf_h = t.x11.buf_h :=
  ⟨⟨{ t.x11 with buf_x := 0 }, t.just_wrapped⟩, by simp [ingest], rfl, rfl, rfl, rfl, rfl, rfl⟩

/-- C7 (round-trip of plain text): on a grid with `W ≥ 1`, `H ≥ 1`, for every byte string
`s` without CR and LF and shorter than `W`, ingesting `s` from the initial state is defined
and yields the buffer `s` followed by zero bytes: row 0, columns `[0, length s)`, equals `s`,
`buf_x = length s`, `buf_y = 0`, and every other cell is still zero. -/
theorem C7_plain_text_round_trip (W H : Int) (s : List Nat) (hW : 1 ≤ W) (hH : 1 ≤ H)
    (hlen : (s.length : Int) < W) (hs : ∀ b ∈ s, b ≠ CR ∧ b ≠ LF) :
    ∃ t', ingest_all (run_init (x11_init W H)) s = some t' ∧
      t'.x11.buf = s ++ List.replicate ((W * H).toNat - s.length) 0 ∧
      (t'.x11.buf.length : Int) = W * H ∧
      t'.x11.buf_x = (s.length : Int) ∧ t'.x11.buf_y = 0 ∧
      (∀ j : Nat, j < s.length → t'.x11.buf[0 * W.toNat + j]? = s[j]?) ∧
      (∀ k : Nat, s.length ≤ k → k < (W * H).toNat → t'.x11.buf[k]? = some 0) := by
  lift W to ℕ using (by omega)
  lift H to ℕ using (by omega)
  have hlen' : s.length < W := by exact_mod_cast hlen
  have hH' : 1 ≤ H := by exact_mod_cast hH
  have hWH : W ≤ W * H := Nat.le_mul_of_pos_right W (by omega)
  have hprod : ((W : Int) * (H : Int)).toNat = W * H := by
    rw [← Nat.cast_mul, Int.toNat_ofNat]
  obtain ⟨jw', h⟩ := plain_text_run W H hH' s hs [] false (by simpa using hlen')
  simp only [List.length_nil, Nat.sub_zero, List.nil_append, Nat.zero_add] at h
  refine ⟨⟨atCell (s ++ List.replicate (W * H - s.length) 0) W H s.length 0, jw'⟩,
    ?_, ?_, ?_, ?_, ?_, ?_, ?_⟩
  · rw [run_init, x11_init_atCell]; exact h
  · rw [hprod]
  · simp only [List.length_append, List.length_replicate]
    push_cast
    omega
  · rfl
  · rfl
  · intro j hj
    simp only [Int.toNat_ofNat, Nat.zero_mul, Nat.zero_add]
    rw [List.getElem?_append_left hj]
  · intro k hk hkl
    rw [hprod] at hkl
    rw [List.getElem?_append_right hk, List.getElem?_replicate, if_pos (by omega)]

theorem C7_plain_text_round_trip_witness :
    ∃ t', ingest_all (run_init (x11_init 3 2)) [104, 105] = some t' ∧
      t'.x11.buf = [104, 105] ++ List.replicate (((3 : Int) * 2).toNat - [104, 105].length) 0 ∧
      (t'.x11.buf.length : Int) = 3 * 2 ∧
      t'.x11.buf_x = (([104, 105] : List Nat).length : Int) ∧ t'.x11.buf_y = 0 ∧
      (∀ j : Nat, j < [104, 105].length →
        t'.x11.buf[0 * (3 : Int).toNat + j]? = ([104, 105] : List Nat)[j]?) ∧
      (∀ k : Nat, [104, 105].length ≤ k → k < ((3 : Int) * 2).toNat →
        t'.x11.buf[k]? = some 0) :=
  C7_plain_text_round_trip 3 2 [104, 105] (by decide) (by decide) (by decide) (by decide)

/-- C8 (counterexample): on the 80 x 25 grid of `x11_setup`, ingesting the single
byte 7 (BEL) from the initial state stores it in cell 0; it is a control character and not
zero, so not every cell holds a printable byte or the zero byte. -/
theorem C8_control_byte_stored :
    ¬ (∀ (bs : List Nat) (t' : Term), ingest_all (run_init x11_setup_buf) bs = some t' →
        ∀ c ∈ t'.x11.buf, printable c = true ∨ c = 0) := by
  intro h
  have hstep := ingest_byte_inside (List.replicate 2000 0) 80 25 0 0 false 7 (by decide)
    (by decide) (by decide) (by decide) (by rw [List.length_replicate])
  have h0 : run_init x11_setup_buf = ⟨atCell (List.replicate 2000 0) 80 25 0 0, false⟩ := rfl
  have hrun : ingest_all (run_init x11_setup_buf) [7]
      = some ⟨atCell ((List.replicate 2000 0).set (0 * 80 + 0) 7) 80 25 (0 + 1) 0, false⟩ := by
    rw [h0]
    simp only [ingest_all, hstep, Option.some_bind]
  have hmem : 7 ∈ (List.replicate 2000 0).set (0 * 80 + 0) 7 :=
    List.mem_set _ _ (by rw [List.length_replicate]; decide) _
  rcases h [7] _ hrun 7 hmem with h7 | h7
  · exact absurd h7 (by decide)
  · exact absurd h7 (by decide)

/-- C8 (amended): on a grid with `W ≥ 1`, `H ≥ 1`, ingesting any byte sequence from the
initial zero-filled state is defined and every cell then holds either the zero byte or one
of the ingested bytes other than CR and LF; so when every ingested byte other than CR and
LF is printable, every cell holds a printable byte or the zero byte. -/
theorem C8_cell_contents (W H : Int) (bs : List Nat) (hW : 1 ≤ W) (hH : 1 ≤ H) :
    ∃ t', ingest_all (run_init (x11_init W H)) bs = some t' ∧
      (∀ c ∈ t'.x11.buf, c = 0 ∨ (c ∈ bs ∧ c ≠ CR ∧ c ≠ LF)) ∧
      ((∀ b ∈ bs, b ≠ CR → b ≠ LF → printable b = true) →
        ∀ c ∈ t'.x11.buf, printable c = true ∨ c = 0) := by
  obtain ⟨t', h, hc⟩ :=
    ingest_all_cells bs (run_init (x11_init W H)) (x11_init_valid W H hW hH)
  have hcells : ∀ c ∈ t'.x11.buf, c = 0 ∨ (c ∈ bs ∧ c ≠ CR ∧ c ≠ LF) := by
    intro c hmem
    rcases hc c hmem with g | g | g
    · exact Or.inl (List.eq_of_mem_replicate g)
    · exact Or.inl g
    · exact Or.inr g
  refine ⟨t', h, hcells, fun hp c hmem => ?_⟩
  rcases hcells c hmem with g | ⟨g1, g2, g3⟩
  · exact Or.inr g
  · exact Or.inl (hp c g1 g2 g3)

theorem C8_cell_contents_witness :
    ∃ t', ingest_all (run_init (x11_init 2 2)) [97, 13, 98, 10, 99] = some t' ∧
      (∀ c ∈ t'.x11.buf, c = 0 ∨ (c ∈ [97, 13, 98, 10, 99] ∧ c ≠ CR ∧ c ≠ LF)) ∧
      ((∀ b ∈ [97, 13, 98, 10, 99], b ≠ CR → b ≠ LF → printable b = true) →
        ∀ c ∈ t'.x11.buf, printable c = true ∨ c = 0) :=
  C8_cell_contents 2 2 [97, 13, 98, 10, 99] (by decide) (by decide)

/-- C9 (session termination): in a pass of the loop of `run()` in which `select` succeeded,
the terminal channel is ready and the single-byte `read` returns zero or a negative value,
`run()` returns 1 in that same pass: the screen buffer and `just_wrapped` are unchanged, no
queued display event is taken, and the only actions added are the two diagnostics, so
nothing is written to the master and nothing is redrawn. -/
theorem C9_session_termination (s : Session) (p : Pass) (ps : List Pass)
    (hsel : p.select_ret ≠ -1) (hready : p.pty_ready = true) (hread : p.read_ret ≤ 0) :
    iteration s p
      = ({ term := s.term, xqueue := s.xqueue ++ p.arrivals,
           log := s.log ++ [Action.eprint "Nothing to read from child: ", Action.perror ""] },
         Status.returned 1) ∧
    run_loop s (p :: ps) = iteration s p ∧
    (run_loop s (p :: ps)).2 = Status.returned 1 ∧ (1 : Int) ≠ 0 ∧
    (run_loop s (p :: ps)).1.term = s.term ∧
    (run_loop s (p :: ps)).1.xqueue = s.xqueue ++ p.arrivals ∧
    (∀ a ∈ (run_loop s (p :: ps)).1.log, a ∈ s.log ∨
      a = Action.eprint "Nothing to read from child: " ∨ a = Action.perror "") := by
  have hit : iteration s p
      = ({ term := s.term, xqueue := s.xqueue ++ p.arrivals,
           log := s.log ++ [Action.eprint "Nothing to read from child: ", Action.perror ""] },
         Status.returned 1) := by
    unfold iteration
    simp only [hsel, if_false, hready, if_true]
    unfold pty_readable
    simp only [hread, if_true]
  have hrun : run_loop s (p :: ps) = iteration s p := by
    rw [run_loop, hit]
  refine ⟨hit, hrun, ?_, by decide, ?_, ?_, ?_⟩
  · rw [hrun, hit]
  · rw [hrun, hit]
  · rw [hrun, hit]
  · rw [hrun, hit]
    intro a ha
    simp only [List.mem_append, List.mem_cons, List.mem_singleton, List.not_mem_nil,
      or_false] at ha
    exact ha

theorem C9_session_termination_witness :
    iteration ⟨run_init (x11_init 2 2), [XEvent.KeyPress [120]], []⟩
        ⟨1, true, 0, 0, true, [XEvent.Expose]⟩
      = ({ term := run_init (x11_init 2 2),
           xqueue := [XEvent.KeyPress [120]] ++ [XEvent.Expose],
           log := [] ++ [Action.eprint "Nothing to read from child: ", Action.perror ""] },
         Status.returned 1) ∧
    run_loop ⟨run_init (x11_init 2 2), [XEvent.KeyPress [120]], []⟩
        (⟨1, true, 0, 0, true, [XEvent.Expose]⟩ :: [])
      = iteration ⟨run_init (x11_init 2 2), [XEvent.KeyPress [120]], []⟩
        ⟨1, true, 0, 0, true, [XEvent.Expose]⟩ ∧
    (run_loop ⟨run_init (x11_init 2 2), [XEvent.KeyPress [120]], []⟩
        (⟨1, true, 0, 0, true, [XEvent.Expose]⟩ :: [])).2 = Status.returned 1 ∧
    (1 : Int) ≠ 0 ∧
    (run_loop ⟨run_init (x11_init 2 2), [XEvent.KeyPress [120]], []⟩
        (⟨1, true, 0, 0, true, [XEvent.Expose]⟩ :: [])).1.term = run_init (x11_init 2 2) ∧
    (run_loop ⟨run_init (x11_init 2 2), [XEvent.KeyPress [120]], []⟩
        (⟨1, true, 0, 0, true, [XEvent.Expose]⟩ :: [])).1.xqueue
      = [XEvent.KeyPress [120]] ++ [XEvent.Expose] ∧
    (∀ a ∈ (run_loop ⟨run_init (x11_init 2 2), [XEvent.KeyPress [120]], []⟩
        (⟨1, true, 0, 0, true, [XEvent.Expose]⟩ :: [])).1.log, a ∈ ([] : List Action) ∨
      a = Action.eprint "Nothing to read from child: " ∨ a = Action.perror "") :=
  C9_session_termination ⟨run_init (x11_init 2 2), [XEvent.KeyPress [120]], []⟩
    ⟨1, true, 0, 0, true, [XEvent.Expose]⟩ [] (by decide) rfl (by decide)

/-- C10 (counterexample): with `x11_setup` and `pty_pair` succeeding and the
window-size `ioctl` returning -1, `main()` returns 1 after the diagnostic; it does not fork
the shell and does not enter the event loop. -/
theorem C10_set_size_failure_is_fatal :
    main ⟨true, true, -1, 4242, 0, false⟩ []
      = ([Action.call "x11_setup", Action.call "pty_pair", Action.ioctl_winsz 80 25,
          Action.perror "ioctl(TIOCSWINSZ)"], Status.returned 1) ∧
    Action.fork ∉ (main ⟨true, true, -1, 4242, 0, false⟩ []).1 ∧
    Action.call "run" ∉ (main ⟨true, true, -1, 4242, 0, false⟩ []).1 := by
  have h : main ⟨true, true, -1, 4242, 0, false⟩ []
      = ([Action.call "x11_setup", Action.call "pty_pair", Action.ioctl_winsz 80 25,
          Action.perror "ioctl(TIOCSWINSZ)"], Status.returned 1) := rfl
  rw [h]
  simp

/-- C10 (amended): a failure of `term_set_size` (the window-size `ioctl` returning -1) is
fatal: after `x11_setup` and `pty_pair` succeeded, `main()` reports the failure with
`perror` and returns 1, whatever the other answers of the system; the shell is not forked
and the event loop is not entered. -/
theorem C10_set_size_failure (env : Startup) (ps : List Pass)
    (hx : env.x11_setup_ok = true) (hp : env.pty_pair_ok = true) (hw : env.winsz_ret = -1) :
    main env ps
      = ([Action.call "x11_setup", Action.call "pty_pair", Action.ioctl_winsz 80 25,
          Action.perror "ioctl(TIOCSWINSZ)"], Status.returned 1) ∧
    Action.fork ∉ (main env ps).1 ∧ Action.call "run" ∉ (main env ps).1 := by
  have h : main env ps
      = ([Action.call "x11_setup", Action.call "pty_pair", Action.ioctl_winsz 80 25,
          Action.perror "ioctl(TIOCSWINSZ)"], Status.returned 1) := by
    unfold main term_set_size
    simp only [hx, hp, hw, Bool.not_true, Bool.false_eq_true, if_false, if_true]
    rfl
  rw [h]
  simp

theorem C10_set_size_failure_witness :
    main ⟨true, true, -1, 7, 0, false⟩ [⟨1, true, 1, 97, false, []⟩]
      = ([Action.call "x11_setup", Action.call "pty_pair", Action.ioctl_winsz 80 25,
          Action.perror "ioctl(TIOCSWINSZ)"], Status.returned 1) ∧
    Action.fork ∉ (main ⟨true, true, -1, 7, 0, false⟩ [⟨1, true, 1, 97, false, []⟩]).1 ∧
    Action.call "run" ∉ (main ⟨true, true, -1, 7, 0, false⟩ [⟨1, true, 1, 97, false, []⟩]).1 :=
  C10_set_size_failure ⟨true, true, -1, 7, 0, false⟩ [⟨1, true, 1, 97, false, []⟩] rfl rfl rfl

end Eduterm
